import Mathlib

/-!
Shallow embedding of `src/canfd_load.py` (class `STM32CANFDBootloader`).

The transport (`python-can` bus) is modelled as a scripted state: `incoming`
lists the results of successive `recv` calls (`none` = timeout; an exhausted
script also times out), `sent` logs every transmitted frame.  Two further
ghost fields observe the run without influencing it: `recvs` counts receive
calls and `calls` records each Flash-Programmer call together with its
boolean outcome.  Python runtime exceptions (AttributeError on `None.data`,
IndexError on `data[0]` of an empty payload, ValueError from `bytes([n])`,
struct.error from `struct.pack`) are modelled by `PyResult`.
-/

/-- Python runtime errors the engine can raise. -/
inductive PyError where
  | attrError
  | indexError
  | valueError
  | structError
deriving DecidableEq, Repr

/-- Outcome of running a piece of the engine: a value or a raised error. -/
inductive PyResult (α : Type) where
  | ok (a : α)
  | exn (e : PyError)
deriving DecidableEq, Repr

/-- Ghost record of one Flash-Programmer call and its boolean outcome. -/
inductive Call where
  | erase (start_page num_pages : Nat) (ok : Bool)
  | write (address : Nat) (data : List Nat) (ok : Bool)
deriving DecidableEq, Repr

/-- Data bytes carried by a recorded call (empty for an erase). -/
def Call.payload : Call → List Nat
  | .erase _ _ _ => []
  | .write _ d _ => d

/-- One transmitted CAN frame, with the fixed fields used at every send in
`send_message`: `can.Message(arbitration_id=0x111, is_extended_id=False,
is_fd=True, bitrate_switch=True, data=data)`. -/
structure TxFrame where
  arbitration_id : Nat
  is_extended_id : Bool
  is_fd : Bool
  bitrate_switch : Bool
  data : List Nat
deriving DecidableEq, Repr

/-- The frame `send_message` transmits for a given payload. -/
def txFrame (data : List Nat) : TxFrame :=
  ⟨0x111, false, true, true, data⟩

/-- The transport with its script plus the ghost observation fields. -/
structure Bus where
  incoming : List (Option (List Nat))
  sent : List TxFrame
  recvs : Nat
  calls : List Call
deriving DecidableEq, Repr

/-- Model of `self.bus.recv(self.TIMEOUT)`: consume the next scripted result;
an exhausted script means every further read times out (`none`). -/
def Bus.recv (b : Bus) : Option (List Nat) × Bus :=
  match b.incoming with
  | [] => (none, { b with recvs := b.recvs + 1 })
  | o :: rest => (o, { b with incoming := rest, recvs := b.recvs + 1 })

/-- Model of `self.bus.send(msg)` for the frame built in `send_message`. -/
def Bus.send (b : Bus) (data : List Nat) : Bus :=
  { b with sent := b.sent ++ [txFrame data] }

/-- Ghost: append one call record. -/
def Bus.logCall (b : Bus) (c : Call) : Bus :=
  { b with calls := b.calls ++ [c] }

/-- Model of `send_message` (src lines 24-31): send one frame, block for one
response, return `True` iff a frame arrived and its first byte is the ACK
sentinel 0x79.  A present frame with an empty payload makes
`response.data[0]` raise IndexError; a timeout (`None` response) is caught
by the truthiness test and yields `False`. -/
def send_message (b : Bus) (data : List Nat) : PyResult Bool × Bus :=
  let b := b.send data
  match b.recv with
  | (none, b) => (.ok false, b)
  | (some [], b) => (.exn .indexError, b)
  | (some (x :: _), b) => (.ok (x == 0x79), b)

/-- Model of `self.bus.recv(self.TIMEOUT).data[0]` (src lines 37-39): a
timeout (`None`) raises AttributeError; an empty payload raises IndexError. -/
def recvByte (b : Bus) : PyResult Nat × Bus :=
  match b.recv with
  | (none, b) => (.exn .attrError, b)
  | (some [], b) => (.exn .indexError, b)
  | (some (x :: _), b) => (.ok x, b)

/-- Model of `[self.bus.recv(self.TIMEOUT).data[0] for _ in range(n)]`. -/
def recvBytes (b : Bus) : Nat → PyResult (List Nat) × Bus
  | 0 => (.ok [], b)
  | n + 1 =>
    match recvByte b with
    | (.exn e, b) => (.exn e, b)
    | (.ok x, b) =>
      match recvBytes b n with
      | (.exn e, b) => (.exn e, b)
      | (.ok xs, b) => (.ok (x :: xs), b)

/-- Model of `get_command` (src lines 33-41): send GET (opcode 0x00); if the
response is not an ACK return `None`; otherwise read `num_commands`, then
`version`, then `num_commands` opcode frames, and return
`(version, commands)`. -/
def get_command (b : Bus) : PyResult (Option (Nat × List Nat)) × Bus :=
  match send_message b [0x00] with
  | (.exn e, b) => (.exn e, b)
  | (.ok false, b) => (.ok none, b)
  | (.ok true, b) =>
    match recvByte b with
    | (.exn e, b) => (.exn e, b)
    | (.ok num_commands, b) =>
      match recvByte b with
      | (.exn e, b) => (.exn e, b)
      | (.ok version, b) =>
        match recvBytes b num_commands with
        | (.exn e, b) => (.exn e, b)
        | (.ok commands, b) => (.ok (some (version, commands)), b)

/-- Big-endian bytes of a 16-bit value (contents of `struct.pack('>H', n)`
for an in-range argument). -/
def u16be (n : Nat) : List Nat :=
  [n / 256, n % 256]

/-- Big-endian bytes of a 32-bit value (contents of `struct.pack('>I', n)`
for an in-range argument). -/
def u32be (n : Nat) : List Nat :=
  [n / 16777216, n / 65536 % 256, n / 256 % 256, n % 256]

/-- Model of `struct.pack('>HH', a, c)`: struct.error outside u16 range. -/
def structPackHH (a c : Nat) : PyResult (List Nat) :=
  if a < 65536 ∧ c < 65536 then .ok (u16be a ++ u16be c) else .exn .structError

/-- Model of `struct.pack('>I', n)`: struct.error outside u32 range. -/
def structPackI (n : Nat) : PyResult (List Nat) :=
  if n < 4294967296 then .ok (u32be n) else .exn .structError

/-- Model of `bytes([n])` where `n` is the Python int `len(data) - 1`:
ValueError outside 0..255 (in particular at -1, for empty data). -/
def bytesOne (n : Int) : PyResult (List Nat) :=
  if 0 ≤ n ∧ n ≤ 255 then .ok [n.toNat] else .exn .valueError

/-- Frame payload built by `erase_memory` (src line 44): opcode 0x44 then
`struct.pack('>HH', start_page, num_pages)`. -/
def eraseFrameData (start_page num_pages : Nat) : PyResult (List Nat) :=
  match structPackHH start_page num_pages with
  | .exn e => .exn e
  | .ok packed => .ok (0x44 :: packed)

/-- Model of `erase_memory` (src lines 43-45), with a ghost `Call.erase`
record of the returned outcome. -/
def erase_memory (b : Bus) (start_page num_pages : Nat) : PyResult Bool × Bus :=
  match eraseFrameData start_page num_pages with
  | .exn e => (.exn e, b)
  | .ok data =>
    match send_message b data with
    | (.exn e, b) => (.exn e, b)
    | (.ok r, b) => (.ok r, b.logCall (.erase start_page num_pages r))

/-- Structurally recursive worker for `chunksOf`: the fuel only bounds the
recursion depth (each step consumes at least one element when `size` is
positive), making the definition evaluate by `decide`. -/
def chunksOfGo (size : Nat) : Nat → List Nat → List (List Nat)
  | 0, _ => []
  | _, [] => []
  | fuel + 1, d => d.take size :: chunksOfGo size fuel (d.drop size)

/-- Model of the slicing comprehension
`[data[i:i+size] for i in range(0, len(data), size)]` for a positive step. -/
def chunksOf (size : Nat) (data : List Nat) : List (List Nat) :=
  if size = 0 then [] else chunksOfGo size data.length data

/-- Command frame payload built by `write_memory` (src lines 48-50):
opcode 0x31, `struct.pack('>I', address)`, then `bytes([len(data) - 1])`. -/
def writeCmdFrameData (address : Nat) (data : List Nat) : PyResult (List Nat) :=
  match structPackI address with
  | .exn e => .exn e
  | .ok addr_bytes =>
    match bytesOne ((data.length : Int) - 1) with
    | .exn e => .exn e
    | .ok len_byte => .ok (0x31 :: (addr_bytes ++ len_byte))

/-- The chunk loop of `write_memory` (src lines 55-57): send every chunk
through `send_message`, returning `False` at the first chunk whose response
is not an ACK. -/
def sendChunks (b : Bus) : List (List Nat) → PyResult Bool × Bus
  | [] => (.ok true, b)
  | c :: rest =>
    match send_message b c with
    | (.exn e, b) => (.exn e, b)
    | (.ok false, b) => (.ok false, b)
    | (.ok true, b) => sendChunks b rest

/-- Model of `write_memory` (src lines 47-60) without the ghost call record:
encode and send the command frame (aborting with `False` if its response is
not an ACK), send the 64-byte chunks, then read one final response and
return whether it is an ACK. -/
def write_memory_run (b : Bus) (address : Nat) (data : List Nat) :
    PyResult Bool × Bus :=
  match writeCmdFrameData address data with
  | .exn e => (.exn e, b)
  | .ok cmd_data =>
    match send_message b cmd_data with
    | (.exn e, b) => (.exn e, b)
    | (.ok false, b) => (.ok false, b)
    | (.ok true, b) =>
      match sendChunks b (chunksOf 64 data) with
      | (.exn e, b) => (.exn e, b)
      | (.ok false, b) => (.ok false, b)
      | (.ok true, b) =>
        match b.recv with
        | (none, b) => (.ok false, b)
        | (some [], b) => (.exn .indexError, b)
        | (some (x :: _), b) => (.ok (x == 0x79), b)

/-- Model of `write_memory`, with a ghost `Call.write` record of the
returned outcome. -/
def write_memory (b : Bus) (address : Nat) (data : List Nat) :
    PyResult Bool × Bus :=
  match write_memory_run b address data with
  | (.exn e, b) => (.exn e, b)
  | (.ok r, b) => (.ok r, b.logCall (.write address data r))

/-- Frame payload built by `go_command` (src lines 62-64): opcode 0x21 then
the address, big-endian u32. -/
def goFrameData (address : Nat) : PyResult (List Nat) :=
  match structPackI address with
  | .exn e => .exn e
  | .ok addr_bytes => .ok (0x21 :: addr_bytes)

/-- Model of `go_command` (src lines 62-64). -/
def go_command (b : Bus) (address : Nat) : PyResult Bool × Bus :=
  match goFrameData address with
  | .exn e => (.exn e, b)
  | .ok data => send_message b data

/-- Page count computed by `upload_firmware` (src line 71):
`(len(firmware_data) + 2047) // 2048`. -/
def pages_to_erase (len : Nat) : Nat :=
  (len + 2047) / 2048

/-- The write loop of `upload_firmware` (src lines 77-81): the Python loop
`for i in range(0, len(firmware_data), 256)` visits exactly the consecutive
256-byte slices `firmware_data[i:i+256]`, here given as the block list,
writing block k at `start_address + 256 * k`. -/
def writeBlocksGo (b : Bus) (addr : Nat) : List (List Nat) → PyResult Bool × Bus
  | [] => (.ok true, b)
  | blk :: rest =>
    match write_memory b addr blk with
    | (.exn e, b) => (.exn e, b)
    | (.ok false, b) => (.ok false, b)
    | (.ok true, b) => writeBlocksGo b (addr + 256) rest

/-- Model of `upload_firmware` (src lines 66-84), taking the firmware bytes
already read from storage (the file read is glue outside the engine): erase
pages 0..pages_to_erase-1, then write the image in 256-byte blocks, aborting
at the first failure. -/
def upload_firmware (b : Bus) (firmware_data : List Nat) (start_address : Nat) :
    PyResult Bool × Bus :=
  match erase_memory b 0 (pages_to_erase firmware_data.length) with
  | (.exn e, b) => (.exn e, b)
  | (.ok false, b) => (.ok false, b)
  | (.ok true, b) => writeBlocksGo b start_address (chunksOf 256 firmware_data)

/-- Number of transport reads one fully-acknowledged `write_memory` performs:
the command-frame response, one response per chunk, and the final response. -/
def writeRecvCount (data : List Nat) : Nat :=
  2 + (chunksOf 64 data).length

/-- Number of transport reads a fully-acknowledged `upload_firmware`
performs: one for the erase and `writeRecvCount` per 256-byte block. -/
def uploadRecvCount (fw : List Nat) : Nat :=
  1 + ((chunksOf 256 fw).map writeRecvCount).sum

/-- Modelled from the spec (sections 4.4 and 8): the planned sequence of
write calls over the given 256-byte blocks, block k at `A + 256 * k`, all
succeeding. -/
def planWrites (A : Nat) : List (List Nat) → List Call
  | [] => []
  | blk :: rest => .write A blk true :: planWrites (A + 256) rest

/-- Response value that `send_message` classifies as a failure without
raising: timeout or a nonempty frame with a non-ACK first byte.  (A
present-but-empty frame instead raises IndexError.) -/
def isNack (o : Option (List Nat)) : Bool :=
  match o with
  | none => true
  | some [] => false
  | some (x :: _) => x != 0x79

/-- First response of the script classifies as a failure in `send_message`:
timeout (also when the script is exhausted) or a nonempty frame whose first
byte is not 0x79. -/
def firstRespFails (b : Bus) : Bool :=
  isNack (b.incoming.headD none)

/-- Boolean ACK classification of a classifiable response. -/
def ackBool (o : Option (List Nat)) : Bool :=
  match o with
  | some (x :: _) => x == 0x79
  | _ => false

/-- Modelled from the spec (section 8 round-trip): big-endian decoder for
the erase payload. -/
def decodeErase (l : List Nat) : Option (Nat × Nat) :=
  match l with
  | op :: a :: b :: c :: d :: [] =>
    if op = 0x44 then some (a * 256 + b, c * 256 + d) else none
  | _ => none

/-- Modelled from the spec (section 8 round-trip): big-endian decoder for
the write command frame payload. -/
def decodeWriteCmd (l : List Nat) : Option (Nat × Nat) :=
  match l with
  | op :: a :: b :: c :: d :: n :: [] =>
    if op = 0x31 then some (((a * 256 + b) * 256 + c) * 256 + d, n) else none
  | _ => none

/-- Modelled from the spec (section 8 round-trip): big-endian decoder for
the go payload. -/
def decodeGo (l : List Nat) : Option Nat :=
  match l with
  | op :: a :: b :: c :: d :: [] =>
    if op = 0x21 then some (((a * 256 + b) * 256 + c) * 256 + d) else none
  | _ => none

/-! ### Basic transport lemmas -/

theorem script_split (b : Bus) (k : Nat)
    (hack : ∀ o ∈ b.incoming, o = some [0x79]) (hk : k ≤ b.incoming.length) :
    b.incoming = List.replicate k (some [0x79]) ++ b.incoming.drop k := by
  conv_lhs => rw [← List.take_append_drop k b.incoming]
  congr 1
  have h := List.eq_replicate_of_mem (a := some [0x79]) (l := b.incoming.take k)
    (fun o ho => hack o (List.mem_of_mem_take ho))
  rw [h, List.length_take]
  congr 1
  omega

theorem send_message_bus (b : Bus) (d : List Nat) :
    (send_message b d).2 =
      { b with incoming := b.incoming.drop 1,
               sent := b.sent ++ [txFrame d], recvs := b.recvs + 1 } := by
  cases hb : b.incoming with
  | nil => simp [send_message, Bus.send, Bus.recv, hb]
  | cons o rest =>
    cases o with
    | none => simp [send_message, Bus.send, Bus.recv, hb]
    | some l =>
      cases l with
      | nil => simp [send_message, Bus.send, Bus.recv, hb]
      | cons x t => simp [send_message, Bus.send, Bus.recv, hb]

theorem send_message_ack (b : Bus) (d : List Nat)
    (tail : List (Option (List Nat))) (h : b.incoming = some [0x79] :: tail) :
    send_message b d =
      (.ok true, ⟨tail, b.sent ++ [txFrame d], b.recvs + 1, b.calls⟩) := by
  simp [send_message, Bus.send, Bus.recv, h]

theorem send_message_nack (b : Bus) (d : List Nat)
    (h : isNack (b.incoming.headD none) = true) :
    send_message b d =
      (.ok false,
        ⟨b.incoming.drop 1, b.sent ++ [txFrame d], b.recvs + 1, b.calls⟩) := by
  cases hb : b.incoming with
  | nil => simp [send_message, Bus.send, Bus.recv, hb]
  | cons o rest =>
    cases o with
    | none => simp [send_message, Bus.send, Bus.recv, hb]
    | some l =>
      cases l with
      | nil => rw [hb] at h; simp [isNack] at h
      | cons x t =>
        rw [hb] at h
        simp only [List.headD_cons, isNack, bne_iff_ne, ne_eq, decide_eq_true_eq] at h
        simp [send_message, Bus.send, Bus.recv, hb, beq_eq_false_iff_ne.mpr h]

theorem sendChunks_calls : ∀ (cs : List (List Nat)) (b : Bus),
    (sendChunks b cs).2.calls = b.calls := by
  intro cs
  induction cs with
  | nil => intro b; rfl
  | cons c rest ih =>
    intro b
    have hbus : (send_message b c).2.calls = b.calls := by rw [send_message_bus]
    rcases h : send_message b c with ⟨r, b2⟩
    rw [h] at hbus
    dsimp only at hbus
    match r with
    | .exn e => simp [sendChunks, h, hbus]
    | .ok false => simp [sendChunks, h, hbus]
    | .ok true => simp [sendChunks, h, ih b2, hbus]

theorem recv_calls (b : Bus) : (b.recv).2.calls = b.calls := by
  unfold Bus.recv; cases b.incoming <;> rfl

theorem write_memory_run_calls (b : Bus) (address : Nat) (data : List Nat) :
    (write_memory_run b address data).2.calls = b.calls := by
  rcases hc : writeCmdFrameData address data with cmd | e
  · have h1 : (send_message b cmd).2.calls = b.calls := by rw [send_message_bus]
    rcases hs : send_message b cmd with ⟨r, b1⟩
    rw [hs] at h1
    dsimp only at h1
    match r with
    | .exn e => simp [write_memory_run, hc, hs, h1]
    | .ok false => simp [write_memory_run, hc, hs, h1]
    | .ok true =>
      have h2 : (sendChunks b1 (chunksOf 64 data)).2.calls = b1.calls :=
        sendChunks_calls _ _
      rcases hsc : sendChunks b1 (chunksOf 64 data) with ⟨r2, b2⟩
      rw [hsc] at h2
      dsimp only at h2
      match r2 with
      | .exn e => simp [write_memory_run, hc, hs, hsc, h1, h2]
      | .ok false => simp [write_memory_run, hc, hs, hsc, h1, h2]
      | .ok true =>
        have h3 : (b2.recv).2.calls = b2.calls := recv_calls b2
        rcases hr : b2.recv with ⟨o, b3⟩
        rw [hr] at h3
        dsimp only at h3
        match o with
        | none => simp [write_memory_run, hc, hs, hsc, hr, h1, h2, h3]
        | some [] => simp [write_memory_run, hc, hs, hsc, hr, h1, h2, h3]
        | some (x :: t) => simp [write_memory_run, hc, hs, hsc, hr, h1, h2, h3]
  · simp [write_memory_run, hc]

theorem write_memory_ok_calls (b : Bus) (address : Nat) (data : List Nat)
    (r : Bool) (b' : Bus) (h : write_memory b address data = (.ok r, b')) :
    b'.calls = b.calls ++ [.write address data r] := by
  have hrun := write_memory_run_calls b address data
  rcases hw : write_memory_run b address data with ⟨r0, b1⟩
  rw [hw] at hrun
  dsimp only at hrun
  match r0 with
  | .exn e => simp [write_memory, hw] at h
  | .ok r1 =>
    simp only [write_memory, hw] at h
    obtain ⟨h1, h2⟩ := Prod.mk.injEq .. ▸ h
    cases h1
    cases h2
    simp [Bus.logCall, hrun]

theorem erase_memory_ok_calls (b : Bus) (start_page num_pages : Nat)
    (r : Bool) (b' : Bus) (h : erase_memory b start_page num_pages = (.ok r, b')) :
    b'.calls = b.calls ++ [.erase start_page num_pages r] := by
  rcases hc : eraseFrameData start_page num_pages with d | e
  · have h1 : (send_message b d).2.calls = b.calls := by rw [send_message_bus]
    rcases hs : send_message b d with ⟨r0, b1⟩
    rw [hs] at h1
    dsimp only at h1
    match r0 with
    | .exn e => simp [erase_memory, hc, hs] at h
    | .ok r1 =>
      simp only [erase_memory, hc, hs] at h
      obtain ⟨h2, h3⟩ := Prod.mk.injEq .. ▸ h
      cases h2
      cases h3
      simp [Bus.logCall, h1]
  · simp [erase_memory, hc] at h

/-! ### Chunking lemmas -/

theorem chunksOfGo_nil (s f : Nat) : chunksOfGo s f [] = [] := by
  cases f <;> rfl

theorem chunksOfGo_fuel (s : Nat) (hs : s ≠ 0) :
    ∀ (f g : Nat) (d : List Nat), d.length ≤ f → d.length ≤ g →
      chunksOfGo s f d = chunksOfGo s g d := by
  intro f
  induction f with
  | zero =>
    intro g d hf hg
    have hd : d = [] := List.length_eq_zero.mp (Nat.le_zero.mp hf)
    subst hd
    simp [chunksOfGo_nil]
  | succ f ih =>
    intro g d hf hg
    cases d with
    | nil => simp [chunksOfGo_nil]
    | cons a t =>
      cases g with
      | zero => simp at hg
      | succ g =>
        simp only [chunksOfGo]
        congr 1
        apply ih
        · simp only [List.length_drop, List.length_cons] at *
          omega
        · simp only [List.length_drop, List.length_cons] at *
          omega

theorem chunksOf_nil (s : Nat) : chunksOf s [] = [] := by
  unfold chunksOf
  split <;> simp [chunksOfGo_nil]

theorem chunksOf_cons (s : Nat) (hs : s ≠ 0) (d : List Nat) (hd : d ≠ []) :
    chunksOf s d = d.take s :: chunksOf s (d.drop s) := by
  unfold chunksOf
  rw [if_neg hs, if_neg hs]
  cases d with
  | nil => exact absurd rfl hd
  | cons a t =>
    simp only [List.length_cons, chunksOfGo]
    congr 1
    apply chunksOfGo_fuel s hs
    · simp only [List.length_drop, List.length_cons]
      omega
    · exact le_rfl

theorem chunksOfGo_flatten (s : Nat) (hs : s ≠ 0) :
    ∀ (f : Nat) (d : List Nat), d.length ≤ f →
      (chunksOfGo s f d).flatten = d := by
  intro f
  induction f with
  | zero =>
    intro d hf
    have hd : d = [] := List.length_eq_zero.mp (Nat.le_zero.mp hf)
    subst hd
    simp [chunksOfGo_nil]
  | succ f ih =>
    intro d hf
    cases d with
    | nil => simp [chunksOfGo_nil]
    | cons a t =>
      simp only [chunksOfGo, List.flatten_cons]
      rw [ih _ (by simp only [List.length_drop, List.length_cons] at *; omega)]
      exact List.take_append_drop s (a :: t)

theorem chunksOf_flatten (s : Nat) (hs : s ≠ 0) (d : List Nat) :
    (chunksOf s d).flatten = d := by
  unfold chunksOf
  rw [if_neg hs]
  exact chunksOfGo_flatten s hs _ d le_rfl

theorem chunksOfGo_mem (s : Nat) (hs : s ≠ 0) :
    ∀ (f : Nat) (d : List Nat) (c : List Nat), d.length ≤ f →
      c ∈ chunksOfGo s f d → 1 ≤ c.length ∧ c.length ≤ s := by
  intro f
  induction f with
  | zero =>
    intro d c hf hc
    have hd : d = [] := List.length_eq_zero.mp (Nat.le_zero.mp hf)
    subst hd
    simp [chunksOfGo_nil] at hc
  | succ f ih =>
    intro d c hf hc
    cases d with
    | nil => simp [chunksOfGo_nil] at hc
    | cons a t =>
      simp only [chunksOfGo, List.mem_cons] at hc
      rcases hc with rfl | hc
      · constructor
        · simp only [List.length_take, List.length_cons]
          omega
        · simp only [List.length_take]
          omega
      · exact ih _ _ (by simp only [List.length_drop, List.length_cons] at *; omega) hc

theorem chunksOf_mem (s : Nat) (hs : s ≠ 0) (d c : List Nat)
    (hc : c ∈ chunksOf s d) : 1 ≤ c.length ∧ c.length ≤ s := by
  unfold chunksOf at hc
  rw [if_neg hs] at hc
  exact chunksOfGo_mem s hs _ d c le_rfl hc

theorem chunksOfGo_dropLast (s : Nat) (hs : s ≠ 0) :
    ∀ (f : Nat) (d : List Nat) (c : List Nat), d.length ≤ f →
      c ∈ (chunksOfGo s f d).dropLast → c.length = s := by
  intro f
  induction f with
  | zero =>
    intro d c hf hc
    have hd : d = [] := List.length_eq_zero.mp (Nat.le_zero.mp hf)
    subst hd
    simp [chunksOfGo_nil] at hc
  | succ f ih =>
    intro d c hf hc
    cases d with
    | nil => simp [chunksOfGo_nil] at hc
    | cons a t =>
      simp only [chunksOfGo] at hc
      cases hdrop : (a :: t).drop s with
      | nil =>
        rw [hdrop, chunksOfGo_nil] at hc
        simp at hc
      | cons e es =>
        have hlen : (a :: t).length - s = es.length + 1 := by
          have := congrArg List.length hdrop
          simpa [List.length_drop] using this
        have hgt : s < (a :: t).length := by
          simp only [List.length_cons] at *
          omega
        have hne : chunksOfGo s f ((a :: t).drop s) ≠ [] := by
          rw [hdrop]
          cases f with
          | zero =>
            exfalso
            simp only [List.length_drop, List.length_cons] at hf hlen
            omega
          | succ f => simp [chunksOfGo]
        rw [List.dropLast_cons_of_ne_nil hne, List.mem_cons] at hc
        rcases hc with rfl | hc
        · simp only [List.length_take]
          omega
        · exact ih _ _ (by simp only [List.length_drop, List.length_cons] at *; omega) hc

theorem chunksOf_dropLast (s : Nat) (hs : s ≠ 0) (d c : List Nat)
    (hc : c ∈ (chunksOf s d).dropLast) : c.length = s := by
  unfold chunksOf at hc
  rw [if_neg hs] at hc
  exact chunksOfGo_dropLast s hs _ d c le_rfl hc

theorem chunksOfGo_length64 :
    ∀ (f : Nat) (d : List Nat), d.length ≤ f →
      (chunksOfGo 64 f d).length = (d.length + 63) / 64 := by
  intro f
  induction f with
  | zero =>
    intro d hf
    have hd : d = [] := List.length_eq_zero.mp (Nat.le_zero.mp hf)
    subst hd
    simp [chunksOfGo_nil]
  | succ f ih =>
    intro d hf
    cases d with
    | nil => simp [chunksOfGo_nil]
    | cons a t =>
      simp only [chunksOfGo, List.length_cons]
      rw [ih _ (by simp only [List.length_drop, List.length_cons] at *; omega)]
      simp only [List.length_drop, List.length_cons]
      omega

theorem chunksOf_length64 (d : List Nat) :
    (chunksOf 64 d).length = (d.length + 63) / 64 := by
  unfold chunksOf
  rw [if_neg (by omega)]
  exact chunksOfGo_length64 _ d le_rfl

theorem chunksOfGo_length256 :
    ∀ (f : Nat) (d : List Nat), d.length ≤ f →
      (chunksOfGo 256 f d).length = (d.length + 255) / 256 := by
  intro f
  induction f with
  | zero =>
    intro d hf
    have hd : d = [] := List.length_eq_zero.mp (Nat.le_zero.mp hf)
    subst hd
    simp [chunksOfGo_nil]
  | succ f ih =>
    intro d hf
    cases d with
    | nil => simp [chunksOfGo_nil]
    | cons a t =>
      simp only [chunksOfGo, List.length_cons]
      rw [ih _ (by simp only [List.length_drop, List.length_cons] at *; omega)]
      simp only [List.length_drop, List.length_cons]
      omega

theorem chunksOf_length256 (d : List Nat) :
    (chunksOf 256 d).length = (d.length + 255) / 256 := by
  unfold chunksOf
  rw [if_neg (by omega)]
  exact chunksOfGo_length256 _ d le_rfl

theorem chunksOfGo_last64 :
    ∀ (f : Nat) (d : List Nat) (e : List Nat), d ≠ [] → d.length ≤ f →
      ((chunksOfGo 64 f d).getLastD e).length =
        (if d.length % 64 = 0 then 64 else d.length % 64) := by
  intro f
  induction f with
  | zero =>
    intro d e hd hf
    exact absurd (List.length_eq_zero.mp (Nat.le_zero.mp hf)) hd
  | succ f ih =>
    intro d e hd hf
    cases d with
    | nil => exact absurd rfl hd
    | cons a t =>
      simp only [chunksOfGo, List.getLastD_cons]
      cases hdrop : (a :: t).drop 64 with
      | nil =>
        rw [chunksOfGo_nil]
        have hn : (a :: t).length ≤ 64 := by
          have := congrArg List.length hdrop
          simp only [List.length_drop, List.length_cons, List.length_nil] at this ⊢
          omega
        simp only [List.getLastD, List.length_take, List.length_cons] at *
        split <;> omega
      | cons q qs =>
        have hl : (q :: qs).length = (a :: t).length - 64 := by
          have := congrArg List.length hdrop
          simp only [List.length_drop] at this
          omega
        have hn : 64 < (a :: t).length := by
          simp only [List.length_cons] at hl ⊢
          omega
        rw [ih (q :: qs) ((a :: t).take 64) (by simp)
          (by simp only [List.length_cons] at *; omega)]
        rw [hl]
        have hmod : ((a :: t).length - 64) % 64 = (a :: t).length % 64 := by
          omega
        rw [hmod]

theorem chunksOf_last64 (d : List Nat) (hd : d ≠ []) :
    ((chunksOf 64 d).getLastD []).length =
      (if d.length % 64 = 0 then 64 else d.length % 64) := by
  unfold chunksOf
  rw [if_neg (by omega)]
  exact chunksOfGo_last64 _ d [] hd le_rfl

theorem chunksOfGo_last256 :
    ∀ (f : Nat) (d : List Nat) (e : List Nat), d ≠ [] → d.length ≤ f →
      ((chunksOfGo 256 f d).getLastD e).length =
        (if d.length % 256 = 0 then 256 else d.length % 256) := by
  intro f
  induction f with
  | zero =>
    intro d e hd hf
    exact absurd (List.length_eq_zero.mp (Nat.le_zero.mp hf)) hd
  | succ f ih =>
    intro d e hd hf
    cases d with
    | nil => exact absurd rfl hd
    | cons a t =>
      simp only [chunksOfGo, List.getLastD_cons]
      cases hdrop : (a :: t).drop 256 with
      | nil =>
        rw [chunksOfGo_nil]
        have hn : (a :: t).length ≤ 256 := by
          have := congrArg List.length hdrop
          simp only [List.length_drop, List.length_cons, List.length_nil] at this ⊢
          omega
        simp only [List.getLastD, List.length_take, List.length_cons] at *
        split <;> omega
      | cons q qs =>
        have hl : (q :: qs).length = (a :: t).length - 256 := by
          have := congrArg List.length hdrop
          simp only [List.length_drop] at this
          omega
        have hn : 256 < (a :: t).length := by
          simp only [List.length_cons] at hl ⊢
          omega
        rw [ih (q :: qs) ((a :: t).take 256) (by simp)
          (by simp only [List.length_cons] at *; omega)]
        rw [hl]
        have hmod : ((a :: t).length - 256) % 256 = (a :: t).length % 256 := by
          omega
        rw [hmod]

theorem chunksOf_last256 (d : List Nat) (hd : d ≠ []) :
    ((chunksOf 256 d).getLastD []).length =
      (if d.length % 256 = 0 then 256 else d.length % 256) := by
  unfold chunksOf
  rw [if_neg (by omega)]
  exact chunksOfGo_last256 _ d [] hd le_rfl

theorem chunksOfGo_getD256 :
    ∀ (f : Nat) (d : List Nat) (k : Nat), d.length ≤ f →
      k < (chunksOfGo 256 f d).length →
      (chunksOfGo 256 f d).getD k [] = (d.drop (256 * k)).take 256 := by
  intro f
  induction f with
  | zero =>
    intro d k hf hk
    have hd : d = [] := List.length_eq_zero.mp (Nat.le_zero.mp hf)
    subst hd
    rw [chunksOfGo_nil] at hk
    simp at hk
  | succ f ih =>
    intro d k hf hk
    cases d with
    | nil =>
      rw [chunksOfGo_nil] at hk
      simp at hk
    | cons a t =>
      simp only [chunksOfGo, List.length_cons] at hk ⊢
      cases k with
      | zero => simp
      | succ k =>
        rw [List.getD_cons_succ]
        rw [ih _ k (by simp only [List.length_drop, List.length_cons] at *; omega)
          (by omega)]
        rw [List.drop_drop]
        have heq : 256 + 256 * k = 256 * (k + 1) := by omega
        rw [heq]

theorem chunksOf_getD256 (d : List Nat) (k : Nat)
    (hk : k < (chunksOf 256 d).length) :
    (chunksOf 256 d).getD k [] = (d.drop (256 * k)).take 256 := by
  unfold chunksOf at hk ⊢
  rw [if_neg (by omega)] at hk ⊢
  exact chunksOfGo_getD256 _ d k le_rfl hk

theorem chunksOfGo_pos256 :
    ∀ (f : Nat) (d : List Nat) (k : Nat), d.length ≤ f →
      k < (chunksOfGo 256 f d).length → 256 * k < d.length := by
  intro f
  induction f with
  | zero =>
    intro d k hf hk
    have hd : d = [] := List.length_eq_zero.mp (Nat.le_zero.mp hf)
    subst hd
    rw [chunksOfGo_nil] at hk
    simp at hk
  | succ f ih =>
    intro d k hf hk
    cases d with
    | nil =>
      rw [chunksOfGo_nil] at hk
      simp at hk
    | cons a t =>
      simp only [chunksOfGo, List.length_cons] at hk
      cases k with
      | zero => simp
      | succ k =>
        have := ih ((a :: t).drop 256) k
          (by simp only [List.length_drop, List.length_cons] at *; omega) (by omega)
        simp only [List.length_drop, List.length_cons] at this ⊢
        omega

theorem chunksOf_pos256 (d : List Nat) (k : Nat)
    (hk : k < (chunksOf 256 d).length) : 256 * k < d.length := by
  unfold chunksOf at hk
  rw [if_neg (by omega)] at hk
  exact chunksOfGo_pos256 _ d k le_rfl hk

/-! ### Plan lemmas -/

theorem planWrites_length (A : Nat) :
    ∀ bs : List (List Nat), (planWrites A bs).length = bs.length := by
  intro bs
  induction bs generalizing A with
  | nil => rfl
  | cons blk rest ih => simp [planWrites, ih]

theorem planWrites_getD :
    ∀ (bs : List (List Nat)) (A k : Nat), k < bs.length →
      (planWrites A bs).getD k (.erase 0 0 false) =
        .write (A + 256 * k) (bs.getD k []) true := by
  intro bs
  induction bs with
  | nil => intro A k hk; simp at hk
  | cons blk rest ih =>
    intro A k hk
    cases k with
    | zero => simp [planWrites]
    | succ k =>
      simp only [planWrites, List.getD_cons_succ]
      rw [ih (A + 256) k (by simp at hk; omega)]
      have heq : A + 256 + 256 * k = A + 256 * (k + 1) := by omega
      rw [heq]

theorem planWrites_payload (A : Nat) :
    ∀ bs : List (List Nat), (planWrites A bs).map Call.payload = bs := by
  intro bs
  induction bs generalizing A with
  | nil => rfl
  | cons blk rest ih => simp [planWrites, Call.payload, ih]

/-! ### Encoder lemmas -/

theorem structPackI_ok (n : Nat) (h : n < 4294967296) :
    structPackI n = .ok (u32be n) := by
  unfold structPackI
  rw [if_pos h]

theorem structPackHH_ok (a c : Nat) (ha : a < 65536) (hc : c < 65536) :
    structPackHH a c = .ok (u16be a ++ u16be c) := by
  unfold structPackHH
  rw [if_pos ⟨ha, hc⟩]

theorem bytesOne_ok (data : List Nat) (h1 : 1 ≤ data.length)
    (h2 : data.length ≤ 256) :
    bytesOne ((data.length : Int) - 1) = .ok [data.length - 1] := by
  unfold bytesOne
  rw [if_pos (by constructor <;> omega)]
  congr 2
  omega

theorem writeCmdFrameData_ok (address : Nat) (data : List Nat)
    (h32 : address < 4294967296) (h1 : 1 ≤ data.length)
    (h2 : data.length ≤ 256) :
    writeCmdFrameData address data =
      .ok (0x31 :: (u32be address ++ [data.length - 1])) := by
  simp [writeCmdFrameData, structPackI_ok address h32, bytesOne_ok data h1 h2]

theorem eraseFrameData_ok (start_page num_pages : Nat)
    (hsp : start_page < 65536) (hnp : num_pages < 65536) :
    eraseFrameData start_page num_pages =
      .ok (0x44 :: (u16be start_page ++ u16be num_pages)) := by
  simp [eraseFrameData, structPackHH_ok start_page num_pages hsp hnp]

theorem goFrameData_ok (address : Nat) (h32 : address < 4294967296) :
    goFrameData address = .ok (0x21 :: u32be address) := by
  simp [goFrameData, structPackI_ok address h32]

/-! ### Scripted-run lemmas -/

theorem sendChunks_ackScript :
    ∀ (cs : List (List Nat)) (b : Bus) (tail : List (Option (List Nat))),
      b.incoming = List.replicate cs.length (some [0x79]) ++ tail →
      sendChunks b cs =
        (.ok true, ⟨tail, b.sent ++ cs.map txFrame,
          b.recvs + cs.length, b.calls⟩) := by
  intro cs
  induction cs with
  | nil =>
    intro b tail h
    obtain ⟨inc, hsent, hrecvs, hcalls⟩ := b
    simp only [List.length_nil, List.replicate_zero, List.nil_append] at h
    subst h
    simp [sendChunks]
  | cons c rest ih =>
    intro b tail h
    rw [List.length_cons, List.replicate_succ, List.cons_append] at h
    have hsm := send_message_ack b c _ h
    have hrest := ih ⟨List.replicate rest.length (some [0x79]) ++ tail,
      b.sent ++ [txFrame c], b.recvs + 1, b.calls⟩ tail rfl
    simp only [sendChunks, hsm, hrest]
    simp [List.append_assoc]
    omega

theorem write_memory_run_script (b : Bus) (address : Nat) (data : List Nat)
    (o : Option (List Nat)) (tail : List (Option (List Nat)))
    (h32 : address < 4294967296) (h1 : 1 ≤ data.length) (h2 : data.length ≤ 256)
    (ho : o = none ∨ ∃ x t, o = some (x :: t))
    (hscript : b.incoming =
      List.replicate (1 + (chunksOf 64 data).length) (some [0x79]) ++ o :: tail) :
    write_memory_run b address data =
      (.ok (ackBool o),
        ⟨tail,
         b.sent ++ txFrame (0x31 :: (u32be address ++ [data.length - 1])) ::
           (chunksOf 64 data).map txFrame,
         b.recvs + (2 + (chunksOf 64 data).length), b.calls⟩) := by
  have hcmd := writeCmdFrameData_ok address data h32 h1 h2
  have hscript' : b.incoming = some [0x79] ::
      (List.replicate (chunksOf 64 data).length (some [0x79]) ++ o :: tail) := by
    rw [hscript, Nat.add_comm, List.replicate_succ, List.cons_append]
  have hsm := send_message_ack b
    (0x31 :: (u32be address ++ [data.length - 1])) _ hscript'
  have hchunks := sendChunks_ackScript (chunksOf 64 data)
    ⟨List.replicate (chunksOf 64 data).length (some [0x79]) ++ o :: tail,
      b.sent ++ [txFrame (0x31 :: (u32be address ++ [data.length - 1]))],
      b.recvs + 1, b.calls⟩ (o :: tail) rfl
  simp only [write_memory_run, hcmd, hsm, hchunks]
  rcases ho with rfl | ⟨x, t, rfl⟩
  · simp only [Bus.recv, ackBool]
    simp [List.append_assoc]
    omega
  · simp only [Bus.recv, ackBool]
    simp [List.append_assoc]
    omega

theorem write_memory_script (b : Bus) (address : Nat) (data : List Nat)
    (o : Option (List Nat)) (tail : List (Option (List Nat)))
    (h32 : address < 4294967296) (h1 : 1 ≤ data.length) (h2 : data.length ≤ 256)
    (ho : o = none ∨ ∃ x t, o = some (x :: t))
    (hscript : b.incoming =
      List.replicate (1 + (chunksOf 64 data).length) (some [0x79]) ++ o :: tail) :
    write_memory b address data =
      (.ok (ackBool o),
        ⟨tail,
         b.sent ++ txFrame (0x31 :: (u32be address ++ [data.length - 1])) ::
           (chunksOf 64 data).map txFrame,
         b.recvs + (2 + (chunksOf 64 data).length),
         b.calls ++ [.write address data (ackBool o)]⟩) := by
  have hrun := write_memory_run_script b address data o tail h32 h1 h2 ho hscript
  simp [write_memory, hrun, Bus.logCall]

theorem erase_memory_ack (b : Bus) (start_page num_pages : Nat)
    (hsp : start_page < 65536) (hnp : num_pages < 65536)
    (tail : List (Option (List Nat))) (hscript : b.incoming = some [0x79] :: tail) :
    erase_memory b start_page num_pages =
      (.ok true,
        ⟨tail, b.sent ++ [txFrame (0x44 :: (u16be start_page ++ u16be num_pages))],
         b.recvs + 1, b.calls ++ [.erase start_page num_pages true]⟩) := by
  have hf := eraseFrameData_ok start_page num_pages hsp hnp
  have hsm := send_message_ack b (0x44 :: (u16be start_page ++ u16be num_pages)) _ hscript
  simp [erase_memory, hf, hsm, Bus.logCall]

theorem writeBlocksGo_ackScript :
    ∀ (blocks : List (List Nat)) (b : Bus) (addr : Nat)
      (tail : List (Option (List Nat))),
      (∀ blk ∈ blocks, 1 ≤ blk.length ∧ blk.length ≤ 256) →
      (∀ k, k < blocks.length → addr + 256 * k < 4294967296) →
      b.incoming =
        List.replicate ((blocks.map writeRecvCount).sum) (some [0x79]) ++ tail →
      ∃ b', writeBlocksGo b addr blocks = (.ok true, b') ∧
        b'.incoming = tail ∧
        b'.calls = b.calls ++ planWrites addr blocks := by
  intro blocks
  induction blocks with
  | nil =>
    intro b addr tail hb ha hscript
    refine ⟨b, rfl, ?_, ?_⟩
    · simpa using hscript
    · simp [planWrites]
  | cons blk rest ih =>
    intro b addr tail hb ha hscript
    have hblk := hb blk (by simp)
    have h32 : addr < 4294967296 := by
      have := ha 0 (by simp)
      simpa using this
    have hsum : writeRecvCount blk + (rest.map writeRecvCount).sum
        = (1 + (chunksOf 64 blk).length) + (1 + (rest.map writeRecvCount).sum) := by
      unfold writeRecvCount
      omega
    have hscript2 : b.incoming =
        List.replicate (1 + (chunksOf 64 blk).length) (some [0x79]) ++
          some [0x79] ::
            (List.replicate ((rest.map writeRecvCount).sum) (some [0x79]) ++ tail) := by
      rw [hscript, List.map_cons, List.sum_cons, hsum, List.replicate_add,
        List.append_assoc]
      congr 1
      rw [Nat.add_comm 1 ((rest.map writeRecvCount).sum), List.replicate_succ,
        List.cons_append]
    have hw := write_memory_script b addr blk (some [0x79]) _ h32 hblk.1 hblk.2
      (Or.inr ⟨0x79, [], rfl⟩) hscript2
    simp only [ackBool, beq_self_eq_true] at hw
    obtain ⟨b', hrun, hinc, hcalls⟩ := ih
      ⟨List.replicate ((rest.map writeRecvCount).sum) (some [0x79]) ++ tail,
        b.sent ++ txFrame (0x31 :: (u32be addr ++ [blk.length - 1])) ::
          (chunksOf 64 blk).map txFrame,
        b.recvs + (2 + (chunksOf 64 blk).length),
        b.calls ++ [.write addr blk true]⟩
      (addr + 256) tail
      (fun blk' h' => hb blk' (by simp [h']))
      (fun k hk => by
        have := ha (k + 1) (by simp only [List.length_cons]; omega)
        omega)
      rfl
    refine ⟨b', ?_, hinc, ?_⟩
    · simp only [writeBlocksGo, hw]
      exact hrun
    · rw [hcalls]
      simp [planWrites, List.append_assoc]

/-- C6: For every firmware image of length L and start address A, when no
write fails the orchestrator issues exactly ceil(L/256) write calls, in
ascending address order at addresses A, A+256, A+512, and so on, where every
block is 256 bytes except the final block of length L mod 256 (or 256 if L
is divisible by 256), and the erase call with start_page 0 happens before
any write.  (Stated over an all-acknowledging transport script that is long
enough, with the image inside the 32-bit address space and the page count in
u16 range.) -/
theorem upload_firmware_plan (b : Bus) (fw : List Nat) (A : Nat)
    (hack : ∀ o ∈ b.incoming, o = some [0x79])
    (hlen : uploadRecvCount fw ≤ b.incoming.length)
    (haddr : A + fw.length ≤ 4294967296)
    (hpages : pages_to_erase fw.length < 65536) :
    ∃ b', upload_firmware b fw A = (.ok true, b') ∧
      b'.calls = b.calls ++
        .erase 0 (pages_to_erase fw.length) true ::
          planWrites A (chunksOf 256 fw) ∧
      (planWrites A (chunksOf 256 fw)).length = (fw.length + 255) / 256 ∧
      (∀ k, k < (planWrites A (chunksOf 256 fw)).length →
        (planWrites A (chunksOf 256 fw)).getD k (.erase 0 0 false) =
          .write (A + 256 * k) ((fw.drop (256 * k)).take 256) true) ∧
      (planWrites A (chunksOf 256 fw)).map Call.payload = chunksOf 256 fw ∧
      (chunksOf 256 fw).flatten = fw ∧
      (∀ c ∈ (chunksOf 256 fw).dropLast, c.length = 256) ∧
      (fw ≠ [] → ((chunksOf 256 fw).getLastD []).length =
        (if fw.length % 256 = 0 then 256 else fw.length % 256)) := by
  have hsplit := script_split b (uploadRecvCount fw) hack hlen
  have hscript : b.incoming = some [0x79] ::
      (List.replicate ((chunksOf 256 fw).map writeRecvCount).sum (some [0x79]) ++
        b.incoming.drop (uploadRecvCount fw)) := by
    conv_lhs => rw [hsplit]
    rw [show uploadRecvCount fw
        = ((chunksOf 256 fw).map writeRecvCount).sum + 1 from by
      unfold uploadRecvCount; omega]
    rw [List.replicate_succ, List.cons_append]
  have herase := erase_memory_ack b 0 (pages_to_erase fw.length) (by omega)
    hpages _ hscript
  obtain ⟨b', hrun, hinc, hcalls⟩ := writeBlocksGo_ackScript (chunksOf 256 fw)
    ⟨List.replicate ((chunksOf 256 fw).map writeRecvCount).sum (some [0x79]) ++
        b.incoming.drop (uploadRecvCount fw),
      b.sent ++ [txFrame (0x44 :: (u16be 0 ++ u16be (pages_to_erase fw.length)))],
      b.recvs + 1,
      b.calls ++ [.erase 0 (pages_to_erase fw.length) true]⟩
    A (b.incoming.drop (uploadRecvCount fw))
    (fun blk h => chunksOf_mem 256 (by omega) fw blk h)
    (fun k hk => by
      have hpos := chunksOf_pos256 fw k hk
      omega)
    rfl
  refine ⟨b', ?_, ?_, ?_, ?_, ?_, ?_, ?_, ?_⟩
  · unfold upload_firmware
    rw [herase]
    exact hrun
  · rw [hcalls]
    simp [List.append_assoc]
  · rw [planWrites_length]
    exact chunksOf_length256 fw
  · intro k hk
    rw [planWrites_length] at hk
    rw [planWrites_getD _ _ _ hk, chunksOf_getD256 fw k hk]
  · exact planWrites_payload A _
  · exact chunksOf_flatten 256 (by omega) fw
  · exact fun c hc => chunksOf_dropLast 256 (by omega) fw c hc
  · exact fun hfw => chunksOf_last256 fw hfw

theorem writeBlocksGo_abort :
    ∀ (blocks : List (List Nat)) (b : Bus) (addr : Nat) (b' : Bus),
      writeBlocksGo b addr blocks = (.ok false, b') →
      ∃ k, k < blocks.length ∧
        b'.calls = b.calls ++
          ((planWrites addr blocks).take k ++
            [.write (addr + 256 * k) (blocks.getD k []) false]) := by
  intro blocks
  induction blocks with
  | nil =>
    intro b addr b' h
    simp [writeBlocksGo] at h
  | cons blk rest ih =>
    intro b addr b' h
    unfold writeBlocksGo at h
    rcases hw : write_memory b addr blk with ⟨r, b1⟩
    rw [hw] at h
    match r with
    | .exn e => simp at h
    | .ok false =>
      simp only at h
      obtain ⟨h1, h2⟩ := Prod.mk.injEq .. ▸ h
      subst h2
      refine ⟨0, by simp, ?_⟩
      rw [write_memory_ok_calls b addr blk false b1 hw]
      simp
    | .ok true =>
      simp only at h
      obtain ⟨k, hk, hcalls⟩ := ih b1 (addr + 256) b' h
      refine ⟨k + 1, by simp only [List.length_cons]; omega, ?_⟩
      rw [hcalls, write_memory_ok_calls b addr blk true b1 hw]
      simp only [planWrites, List.take_succ_cons, List.getD_cons_succ]
      have heq : addr + 256 + 256 * k = addr + 256 * (k + 1) := by omega
      rw [heq]
      simp [List.append_assoc]

/-- C7: The upload aborts on first failure: if the erase fails, the upload
reports failure and no write is ever attempted; if the write of block k
(0-based) fails, blocks 0 to k-1 were attempted and succeeded, block k was
attempted and failed, no later block is ever attempted, and the upload
reports failure. -/
theorem upload_firmware_abort (b : Bus) (fw : List Nat) (A : Nat) (b' : Bus)
    (h : upload_firmware b fw A = (.ok false, b')) :
    b'.calls = b.calls ++ [.erase 0 (pages_to_erase fw.length) false] ∨
    ∃ k, k < (chunksOf 256 fw).length ∧
      b'.calls = b.calls ++
        .erase 0 (pages_to_erase fw.length) true ::
          ((planWrites A (chunksOf 256 fw)).take k ++
            [.write (A + 256 * k) ((fw.drop (256 * k)).take 256) false]) ∧
      (∀ j, j < k →
        (planWrites A (chunksOf 256 fw)).getD j (.erase 0 0 false) =
          .write (A + 256 * j) ((fw.drop (256 * j)).take 256) true) := by
  unfold upload_firmware at h
  rcases he : erase_memory b 0 (pages_to_erase fw.length) with ⟨r, b1⟩
  rw [he] at h
  match r with
  | .exn e => simp at h
  | .ok false =>
    simp only at h
    obtain ⟨h1, h2⟩ := Prod.mk.injEq .. ▸ h
    subst h2
    exact Or.inl (erase_memory_ok_calls b 0 _ false b1 he)
  | .ok true =>
    simp only at h
    obtain ⟨k, hk, hcalls⟩ := writeBlocksGo_abort (chunksOf 256 fw) b1 A b' h
    have he2 := erase_memory_ok_calls b 0 _ true b1 he
    refine Or.inr ⟨k, hk, ?_, ?_⟩
    · rw [hcalls, he2, chunksOf_getD256 fw k hk]
      simp [List.append_assoc]
    · intro j hj
      have hjlen : j < (chunksOf 256 fw).length := lt_trans hj hk
      rw [planWrites_getD _ _ _ hjlen, chunksOf_getD256 fw j hjlen]

theorem sendChunks_abortScript :
    ∀ (j : Nat) (cs : List (List Nat)) (b : Bus) (o : Option (List Nat))
      (tail : List (Option (List Nat))), j < cs.length → isNack o = true →
      b.incoming = List.replicate j (some [0x79]) ++ o :: tail →
      sendChunks b cs =
        (.ok false, ⟨tail, b.sent ++ (cs.take (j + 1)).map txFrame,
          b.recvs + (j + 1), b.calls⟩) := by
  intro j
  induction j with
  | zero =>
    intro cs b o tail hj ho hscript
    cases cs with
    | nil => simp at hj
    | cons c rest =>
      simp only [List.replicate_zero, List.nil_append] at hscript
      have hsm := send_message_nack b c (by rw [hscript]; simpa using ho)
      simp only [sendChunks, hsm, hscript]
      simp

  | succ j ih =>
    intro cs b o tail hj ho hscript
    cases cs with
    | nil => simp at hj
    | cons c rest =>
      rw [List.replicate_succ, List.cons_append] at hscript
      have hsm := send_message_ack b c _ hscript
      have hrest := ih rest
        ⟨List.replicate j (some [0x79]) ++ o :: tail,
          b.sent ++ [txFrame c], b.recvs + 1, b.calls⟩ o tail
        (by simpa using hj) ho rfl
      simp only [sendChunks, hsm, hrest]
      simp [List.append_assoc, List.take_succ_cons]
      omega

theorem write_memory_chunk_nack (b : Bus) (address : Nat) (data : List Nat)
    (j : Nat) (o : Option (List Nat)) (tail : List (Option (List Nat)))
    (h32 : address < 4294967296) (h1 : 1 ≤ data.length) (h2 : data.length ≤ 256)
    (hj : j < (chunksOf 64 data).length) (ho : isNack o = true)
    (hscript : b.incoming = List.replicate (1 + j) (some [0x79]) ++ o :: tail) :
    write_memory b address data =
      (.ok false,
        ⟨tail,
         b.sent ++ txFrame (0x31 :: (u32be address ++ [data.length - 1])) ::
           ((chunksOf 64 data).take (j + 1)).map txFrame,
         b.recvs + (2 + j), b.calls ++ [.write address data false]⟩) := by
  have hcmd := writeCmdFrameData_ok address data h32 h1 h2
  have hscript' : b.incoming = some [0x79] ::
      (List.replicate j (some [0x79]) ++ o :: tail) := by
    rw [hscript, Nat.add_comm, List.replicate_succ, List.cons_append]
  have hsm := send_message_ack b
    (0x31 :: (u32be address ++ [data.length - 1])) _ hscript'
  have habort := sendChunks_abortScript j (chunksOf 64 data)
    ⟨List.replicate j (some [0x79]) ++ o :: tail,
      b.sent ++ [txFrame (0x31 :: (u32be address ++ [data.length - 1]))],
      b.recvs + 1, b.calls⟩ o tail hj ho rfl
  unfold write_memory write_memory_run
  simp only [hcmd, hsm, habort, Bus.logCall]
  simp [List.append_assoc]
  omega

/-- C1 is false on the code at this input: with a non-Acknowledge response
(first byte 0x00) to the WRITE_MEMORY command frame and a 65-byte block (so
two data chunks were pending), `write_memory` returns failure having sent
only the single command frame — it does not proceed to send the data chunk
frames. -/
theorem write_memory_cmd_nack_cx :
    (write_memory ⟨[some [0x00]], [], 0, []⟩ 134217728
        (List.replicate 65 171)).1 = .ok false ∧
    (write_memory ⟨[some [0x00]], [], 0, []⟩ 134217728
        (List.replicate 65 171)).2.sent = [txFrame [0x31, 8, 0, 0, 0, 64]] ∧
    (chunksOf 64 (List.replicate 65 171)).length = 2 := by
  decide

/-- C1 (amended): the response to the initial WRITE_MEMORY command frame is
read and its ACK/Failure classification IS used to abort: when that first
response is not an Acknowledge, `write_memory` returns failure immediately,
having sent only the command frame and read only that one response — no
data chunk frame is ever sent. -/
theorem write_memory_cmd_nack (b : Bus) (address : Nat) (data : List Nat)
    (h32 : address < 4294967296) (h1 : 1 ≤ data.length) (h2 : data.length ≤ 256)
    (hfail : firstRespFails b = true) :
    write_memory b address data =
      (.ok false,
        ⟨b.incoming.drop 1,
         b.sent ++ [txFrame (0x31 :: (u32be address ++ [data.length - 1]))],
         b.recvs + 1, b.calls ++ [.write address data false]⟩) := by
  have hcmd := writeCmdFrameData_ok address data h32 h1 h2
  have hsm := send_message_nack b
    (0x31 :: (u32be address ++ [data.length - 1])) hfail
  unfold write_memory write_memory_run
  simp only [hcmd, hsm, Bus.logCall]

/-- Witness for C1's amended theorem at a concrete input. -/
theorem write_memory_cmd_nack_w :
    (write_memory ⟨[some [0x1F]], [], 0, []⟩ 5 [9]).1 = .ok false := by
  rw [write_memory_cmd_nack ⟨[some [0x1F]], [], 0, []⟩ 5 [9] (by decide)
    (by decide) (by decide) (by decide)]

/-- C2 is false on the code at this input: with the command frame
acknowledged, a 65-byte block (two chunks), and a non-Acknowledge response
after the first chunk, `write_memory` reads a response between the chunks,
aborts with failure, and sends only two frames (command frame and first
chunk) — the second chunk is never sent and no single final response frame
decides the outcome. -/
theorem write_memory_per_chunk_cx :
    (write_memory ⟨[some [0x79], some [0x00]], [], 0, []⟩ 134217728
        (List.replicate 65 7)).1 = .ok false ∧
    (write_memory ⟨[some [0x79], some [0x00]], [], 0, []⟩ 134217728
        (List.replicate 65 7)).2.sent.length = 2 ∧
    (write_memory ⟨[some [0x79], some [0x00]], [], 0, []⟩ 134217728
        (List.replicate 65 7)).2.recvs = 2 ∧
    (chunksOf 64 (List.replicate 65 7)).length = 2 := by
  decide

/-- C2 (amended): after the command frame is acknowledged, each data chunk
is sent and one response frame is read per chunk; a non-Acknowledge chunk
response aborts the write with failure without sending the remaining
chunks; when every chunk response is an Acknowledge, exactly one further
response frame is read and the write returns success iff that final frame
classifies as an Acknowledge. -/
theorem write_memory_per_chunk (b : Bus) (address : Nat) (data : List Nat)
    (h32 : address < 4294967296) (h1 : 1 ≤ data.length)
    (h2 : data.length ≤ 256) :
    (∀ o tail, (o = none ∨ ∃ x t, o = some (x :: t)) →
      b.incoming =
        List.replicate (1 + (chunksOf 64 data).length) (some [0x79]) ++
          o :: tail →
      write_memory b address data =
        (.ok (ackBool o),
          ⟨tail,
           b.sent ++ txFrame (0x31 :: (u32be address ++ [data.length - 1])) ::
             (chunksOf 64 data).map txFrame,
           b.recvs + (2 + (chunksOf 64 data).length),
           b.calls ++ [.write address data (ackBool o)]⟩)) ∧
    (∀ j o tail, j < (chunksOf 64 data).length → isNack o = true →
      b.incoming = List.replicate (1 + j) (some [0x79]) ++ o :: tail →
      write_memory b address data =
        (.ok false,
          ⟨tail,
           b.sent ++ txFrame (0x31 :: (u32be address ++ [data.length - 1])) ::
             ((chunksOf 64 data).take (j + 1)).map txFrame,
           b.recvs + (2 + j), b.calls ++ [.write address data false]⟩)) :=
  ⟨fun o tail ho hs => write_memory_script b address data o tail h32 h1 h2 ho hs,
   fun j o tail hj ho hs =>
     write_memory_chunk_nack b address data j o tail h32 h1 h2 hj ho hs⟩

/-- Witness for C2's amended theorem at a concrete input. -/
theorem write_memory_per_chunk_w :
    (write_memory ⟨[some [0x79], some [0x79], some [0x79], some [0x79]],
        [], 0, []⟩ 7 (List.replicate 65 9)).1 = .ok true := by
  have h := (write_memory_per_chunk
      ⟨[some [0x79], some [0x79], some [0x79], some [0x79]], [], 0, []⟩ 7
      (List.replicate 65 9) (by decide) (by decide) (by decide)).1
      (some [0x79]) [] (Or.inr ⟨0x79, [], rfl⟩) (by decide)
  rw [h]
  rfl

/-- C3 is contradicted by the code (code bug): when the GET frame is
acknowledged and the transport then times out on the num_commands read, on
the version read, or on one of the enumeration reads, `get_command` raises
AttributeError — the `None` returned by `recv` is dereferenced as
`recv(...).data[0]` — instead of reporting a handshake failure (no result)
to the caller. -/
theorem get_command_timeout_raises :
    (get_command ⟨[some [0x79]], [], 0, []⟩).1 = .exn .attrError ∧
    (get_command ⟨[some [0x79], some [2]], [], 0, []⟩).1 = .exn .attrError ∧
    (get_command ⟨[some [0x79], some [2], some [3]], [], 0, []⟩).1 =
      .exn .attrError := by
  decide

/-- C4: if the handshake's first exchange (the GET command frame) does not
receive an Acknowledge response, `get_command` issues no further reads on
the transport — exactly one receive, the one inside `send_message` — sends
nothing beyond the single GET frame, and reports failure by returning no
result. -/
theorem get_command_first_nack (b : Bus) (h : firstRespFails b = true) :
    get_command b =
      (.ok none, ⟨b.incoming.drop 1, b.sent ++ [txFrame [0x00]],
        b.recvs + 1, b.calls⟩) := by
  have hsm := send_message_nack b [0x00] h
  unfold get_command
  simp only [hsm]

/-- Witness for C4's theorem at a concrete input (immediate timeout). -/
theorem get_command_first_nack_w :
    get_command ⟨[none], [], 0, []⟩ =
      (.ok none, ⟨[], [txFrame [0x00]], 1, []⟩) := by
  rw [get_command_first_nack ⟨[none], [], 0, []⟩ (by decide)]
  rfl

/-- C5: for every data block of length n with 1 ≤ n ≤ 256, the chunking in
`write_memory` splits the block into exactly ceil(n/64) chunks, every chunk
except the last is exactly 64 bytes, the last chunk is n mod 64 bytes (or
64 if n is divisible by 64), and the concatenation of the chunks in order
equals the original block. -/
theorem write_chunking (data : List Nat) (h1 : 1 ≤ data.length)
    (h2 : data.length ≤ 256) :
    (chunksOf 64 data).length = (data.length + 63) / 64 ∧
    (∀ c ∈ (chunksOf 64 data).dropLast, c.length = 64) ∧
    ((chunksOf 64 data).getLastD []).length =
      (if data.length % 64 = 0 then 64 else data.length % 64) ∧
    (chunksOf 64 data).flatten = data := by
  have hd : data ≠ [] := by
    intro h
    rw [h] at h1
    simp at h1
  exact ⟨chunksOf_length64 data,
    fun c hc => chunksOf_dropLast 64 (by omega) data c hc,
    chunksOf_last64 data hd,
    chunksOf_flatten 64 (by omega) data⟩

/-- Witness for C5's theorem at a concrete input (65 bytes, two chunks). -/
theorem write_chunking_w :
    (chunksOf 64 (List.replicate 65 7)).length = 2 ∧
    (chunksOf 64 (List.replicate 65 7)).flatten = List.replicate 65 7 := by
  have h := write_chunking (List.replicate 65 7) (by decide) (by decide)
  exact ⟨h.1.trans (by decide), h.2.2.2⟩

/-- C8: the orchestrator computes pages_to_erase = ceil(L / 2048) — it is
the least m with L ≤ 2048 m — and in particular it is 0 for L = 0, 1 for
L = 2048, and 2 for L = 2049. -/
theorem pages_to_erase_ceil (L : Nat) :
    L ≤ 2048 * pages_to_erase L ∧
    2048 * pages_to_erase L < L + 2048 ∧
    pages_to_erase 0 = 0 ∧ pages_to_erase 2048 = 1 ∧ pages_to_erase 2049 = 2 := by
  unfold pages_to_erase
  omega

/-- C9: decoding the frame payloads produced by the erase encoder, the
write command-frame encoder, and the go encoder reproduces the original
(start_page, num_pages), (address, len(data) - 1), and address values
exactly, big-endian. -/
theorem encode_roundtrip (start_page num_pages address : Nat)
    (data : List Nat) (hsp : start_page < 65536) (hnp : num_pages < 65536)
    (h32 : address < 4294967296) (h1 : 1 ≤ data.length)
    (h2 : data.length ≤ 256) :
    (∃ p, eraseFrameData start_page num_pages = .ok p ∧
      decodeErase p = some (start_page, num_pages)) ∧
    (∃ p, writeCmdFrameData address data = .ok p ∧
      decodeWriteCmd p = some (address, data.length - 1)) ∧
    (∃ p, goFrameData address = .ok p ∧ decodeGo p = some address) := by
  refine ⟨⟨_, eraseFrameData_ok start_page num_pages hsp hnp, ?_⟩,
    ⟨_, writeCmdFrameData_ok address data h32 h1 h2, ?_⟩,
    ⟨_, goFrameData_ok address h32, ?_⟩⟩
  · simp [decodeErase, u16be]
    omega
  · simp [decodeWriteCmd, u32be]
    omega
  · simp [decodeGo, u32be]
    omega

/-- Witness for C9's theorem at concrete inputs. -/
theorem encode_roundtrip_w :
    ∃ p, eraseFrameData 3 7 = .ok p ∧ decodeErase p = some (3, 7) :=
  (encode_roundtrip 3 7 134217728 [1, 2, 3, 4, 5] (by decide) (by decide)
    (by decide) (by decide) (by decide)).1

/-- C10: for every data with 1 ≤ len(data) ≤ 256 the encoded length byte
len(data) - 1 lies in 0..255 and the command-frame encoding succeeds, while
for empty data the value len(data) - 1 = -1 is not representable as a byte
and `write_memory` fails with ValueError at encoding, before any frame is
sent (the bus state is returned unchanged). -/
theorem write_length_byte (b : Bus) (address : Nat) (data : List Nat)
    (h32 : address < 4294967296) :
    (1 ≤ data.length → data.length ≤ 256 →
      bytesOne ((data.length : Int) - 1) = .ok [data.length - 1] ∧
      data.length - 1 ≤ 255 ∧
      writeCmdFrameData address data =
        .ok (0x31 :: (u32be address ++ [data.length - 1]))) ∧
    (data = [] → write_memory b address data = (.exn .valueError, b)) := by
  constructor
  · intro h1 h2
    exact ⟨bytesOne_ok data h1 h2, by omega,
      writeCmdFrameData_ok address data h32 h1 h2⟩
  · intro h
    subst h
    have hcmd : writeCmdFrameData address [] = .exn .valueError := by
      norm_num [writeCmdFrameData, structPackI_ok address h32, bytesOne]
    unfold write_memory write_memory_run
    simp only [hcmd]

/-- Witness for C10's theorem at concrete inputs. -/
theorem write_length_byte_w :
    bytesOne ((1 : Int) - 1) = .ok [0] ∧
    write_memory ⟨[], [], 0, []⟩ 0 [] = (.exn .valueError, ⟨[], [], 0, []⟩) := by
  refine ⟨?_, (write_length_byte ⟨[], [], 0, []⟩ 0 [] (by decide)).2 rfl⟩
  have h := (write_length_byte ⟨[], [], 0, []⟩ 0 [5] (by decide)).1
    (by decide) (by decide)
  simpa using h.1

/-- Witness for C6's theorem at a concrete input. -/
theorem upload_firmware_plan_w :
    ∃ b', upload_firmware ⟨List.replicate 4 (some [0x79]), [], 0, []⟩
        [1, 2, 3] 8 = (.ok true, b') := by
  obtain ⟨b', h, _⟩ := upload_firmware_plan
    ⟨List.replicate 4 (some [0x79]), [], 0, []⟩ [1, 2, 3] 8
    (by decide) (by decide) (by decide) (by decide)
  exact ⟨b', h⟩

/-- Witness for C7's theorem at a concrete input (erase refused). -/
theorem upload_firmware_abort_w :
    (upload_firmware ⟨[some [0x00]], [], 0, []⟩ [1, 2, 3] 8).2.calls =
        ([] : List Call) ++
          [.erase 0 (pages_to_erase ([1, 2, 3] : List Nat).length) false] ∨
    ∃ k, k < (chunksOf 256 [1, 2, 3]).length ∧
      (upload_firmware ⟨[some [0x00]], [], 0, []⟩ [1, 2, 3] 8).2.calls =
        ([] : List Call) ++
          .erase 0 (pages_to_erase ([1, 2, 3] : List Nat).length) true ::
            ((planWrites 8 (chunksOf 256 [1, 2, 3])).take k ++
              [.write (8 + 256 * k)
                ((([1, 2, 3] : List Nat).drop (256 * k)).take 256) false]) ∧
      (∀ j, j < k →
        (planWrites 8 (chunksOf 256 [1, 2, 3])).getD j (.erase 0 0 false) =
          .write (8 + 256 * j)
            ((([1, 2, 3] : List Nat).drop (256 * j)).take 256) true) :=
  upload_firmware_abort ⟨[some [0x00]], [], 0, []⟩ [1, 2, 3] 8
    (upload_firmware ⟨[some [0x00]], [], 0, []⟩ [1, 2, 3] 8).2 (by decide)
